import Mathlib

/-!
# Verification of the INSCIT conversational-retrieval evaluation pipeline

Shallow embedding of the evaluation core of the repository:

* `module/retrieval_evaluator.py` — the ranking-metric engine
  (`RetrievalEvaluator`: `_get_gold_ids`, `calculate_precision_at_k`,
  `calculate_recall_at_k`, `calculate_ndcg`, `calculate_all_metrics`);
* `module/conversation_retrieval_processor.py` — the query normalizer
  (`_preprocess_query`), the turn processor (`_create_new_turn_structure`,
  `_process_single_turn`, `_process_turns`, `process_json_file`) and the
  aggregator (`_collect_metrics_scores`, `calculate_overall_metrics`).

Conventions of the embedding:

* Python floats are modelled by the real numbers `ℝ`; `np.log2 x` is
  `Real.logb 2 x`.
* Python strings are modelled by Lean `String` when only compared for
  equality, and by `List Char` where character-level processing happens
  (the query normalizer).
* A Python `dict` is modelled by an association list in insertion order;
  `dictGet` is key lookup and `dictSet` is `d[k] = v` (replace in place if
  the key is present, append otherwise).
* The retrieval backend (`LuceneRetriever.search`) is an external
  collaborator; it is a parameter `search : String → ℕ → Except String (List Doc)`
  of the processor, `Except` modelling a Python call that may raise.
  Raising Python code is modelled in the `Except` monad, and an uncaught
  exception is a propagated `.error`.
* The cutoff `k` is `Option ℕ`: `none` models Python `k=None`
  (use the whole retrieved list), `some k` a non-negative cutoff.
-/

/-- A retrieved document as the metric engine sees it: only its
`passage_id` field is ever read (`doc['passage_id']`). -/
structure Doc where
  passage_id : String
deriving DecidableEq, Repr

instance : Inhabited Doc := ⟨⟨""⟩⟩

/-- One entry of a label's `evidence` list: either a bare string id, or a
dict that may or may not carry a `passage_id` field.  Any other shape is
ignored by `_get_gold_ids`, which the constructor `dict none` also covers. -/
inductive Evidence where
  | str (s : String)
  | dict (pid : Option String)
deriving DecidableEq, Repr

/-- `RetrievalEvaluator._get_gold_ids`: collect the set of gold passage ids
from the evidence list (set semantics: duplicates collapse). -/
def _get_gold_ids : List Evidence → Finset String
  | [] => ∅
  | e :: es =>
    (match e with
      | .str s => {s}
      | .dict (some p) => {p}
      | .dict none => ∅) ∪ _get_gold_ids es

/-- The effective cutoff: Python `if k is None: k = len(retrieved_evidence)`. -/
def effK (retrieved : List Doc) : Option ℕ → ℕ
  | none => retrieved.length
  | some k => k

/-- The loop `for doc in docs: if doc['passage_id'] in gold_ids: relevant_count += 1`
shared verbatim by `calculate_precision_at_k` and `calculate_recall_at_k`. -/
def relevantCount (gold_ids : Finset String) (docs : List Doc) : ℕ :=
  (docs.filter (fun d => decide (d.passage_id ∈ gold_ids))).length

/-- `RetrievalEvaluator.calculate_precision_at_k`. -/
noncomputable def calculate_precision_at_k (retrieved : List Doc) (gold : List Evidence)
    (k? : Option ℕ) : ℝ :=
  let k := effK retrieved k?
  let gold_ids := _get_gold_ids gold
  if 0 < k then (relevantCount gold_ids (retrieved.take k) : ℝ) / (k : ℝ) else 0

/-- `RetrievalEvaluator.calculate_recall_at_k`. -/
noncomputable def calculate_recall_at_k (retrieved : List Doc) (gold : List Evidence)
    (k? : Option ℕ) : ℝ :=
  let k := effK retrieved k?
  let gold_ids := _get_gold_ids gold
  if gold_ids.card = 0 then 0
  else (relevantCount gold_ids (retrieved.take k) : ℝ) / (gold_ids.card : ℝ)

/-- The DCG loop of `calculate_ndcg`:
`for i, doc in enumerate(retrieved_evidence[:k]): dcg += relevance / np.log2(i + 2)`,
with `i` the running 0-based index. -/
noncomputable def dcgList (gold_ids : Finset String) : List Doc → ℕ → ℝ
  | [], _ => 0
  | d :: ds, i =>
    (if d.passage_id ∈ gold_ids then (1 : ℝ) else 0) / Real.logb 2 ((i : ℝ) + 2)
      + dcgList gold_ids ds (i + 1)

/-- The IDCG loop of `calculate_ndcg`:
`for i in range(num_gold): idcg += 1.0 / np.log2(i + 2)`. -/
noncomputable def idcgSum : ℕ → ℝ
  | 0 => 0
  | n + 1 => idcgSum n + 1 / Real.logb 2 ((n : ℝ) + 2)

/-- `RetrievalEvaluator.calculate_ndcg`. -/
noncomputable def calculate_ndcg (retrieved : List Doc) (gold : List Evidence)
    (k? : Option ℕ) : ℝ :=
  let k := effK retrieved k?
  let gold_ids := _get_gold_ids gold
  let dcg := dcgList gold_ids (retrieved.take k) 0
  let idcg := idcgSum (min gold_ids.card k)
  if idcg = 0 then 0 else dcg / idcg

/-- The key `f'{metric_type}@{k}'` of the results dict. -/
def metricKey (metric : String) (k : ℕ) : String :=
  metric ++ "@" ++ toString k

/-- Lookup in a Python dict modelled as an insertion-ordered association
list (`key in d` / `d[key]`). -/
def dictGet {α : Type} (key : String) : List (String × α) → Option α
  | [] => none
  | p :: ps => if p.1 = key then some p.2 else dictGet key ps

/-- Assignment `d[key] = v` on a Python dict modelled as an
insertion-ordered association list: replace in place when the key exists,
append otherwise. -/
def dictSet {α : Type} (d : List (String × α)) (key : String) (v : α) :
    List (String × α) :=
  if d.any (fun p => decide (p.1 = key)) then
    d.map (fun p => if p.1 = key then (key, v) else p)
  else d ++ [(key, v)]

/-- `RetrievalEvaluator.calculate_all_metrics`: build the results dict with
the three loops, nDCG keys first, then precision, then recall. -/
noncomputable def calculate_all_metrics (retrieved : List Doc)
    (gold : List Evidence) (k_values : List ℕ) : List (String × ℝ) :=
  k_values.foldl
    (fun acc k => dictSet acc (metricKey "recall" k) (calculate_recall_at_k retrieved gold (some k)))
    (k_values.foldl
      (fun acc k => dictSet acc (metricKey "precision" k) (calculate_precision_at_k retrieved gold (some k)))
      (k_values.foldl
        (fun acc k => dictSet acc (metricKey "ndcg" k) (calculate_ndcg retrieved gold (some k))) []))

/-- Python `str.isspace` for a single character, as used by `str.strip()`
and `str.split()` (ASCII whitespace; the model for the claims at hand). -/
def isWs (c : Char) : Bool :=
  c = ' ' || c = '\t' || c = '\n' || c = '\r'

/-- Strip characters satisfying `p` from both ends of a character list:
the semantics of Python `str.strip(chars)` (and `str.strip()` with
`p = isWs`).  Note: both ends, not only the trailing end. -/
def stripEnds (p : Char → Bool) (l : List Char) : List Char :=
  ((l.dropWhile p).reverse.dropWhile p).reverse

/-- Python `query.strip()`. -/
def pyStrip (l : List Char) : List Char := stripEnds isWs l

/-- Python `str.lower()` on one character (ASCII letters, code points
65–90, exactly as in `Char.toLower`; the stop words and the claims only
involve ASCII). -/
def lowerChar (c : Char) : Char :=
  if 65 ≤ c.toNat ∧ c.toNat ≤ 90 then Char.ofNat (c.toNat + 32) else c

/-- Python `str.lower()`. -/
def pyLower (l : List Char) : List Char := l.map lowerChar

/-- Worker of `splitWs`: `acc` is the reversed current word. -/
def splitWsAux : List Char → List Char → List (List Char)
  | acc, [] => if acc = [] then [] else [acc.reverse]
  | acc, c :: cs =>
    if isWs c then
      if acc = [] then splitWsAux [] cs else acc.reverse :: splitWsAux [] cs
    else splitWsAux (c :: acc) cs

/-- Python `str.split()` with no argument: split on runs of whitespace,
discarding empty pieces. -/
def splitWs (l : List Char) : List (List Char) := splitWsAux [] l

/-- The punctuation characters stripped from word ends:
`word.strip('.,!?;:')`. -/
def isPunct (c : Char) : Bool :=
  c = '.' || c = ',' || c = '!' || c = '?' || c = ';' || c = ':'

/-- `word.strip('.,!?;:')` — strips from both ends. -/
def stripPunct (w : List Char) : List Char := stripEnds isPunct w

/-- The fixed interrogative/auxiliary stop-word list `question_words` of
`_preprocess_query`. -/
def question_words : List (List Char) :=
  ["what", "when", "where", "who", "why", "how", "which", "can", "could",
   "would", "will", "do", "does", "did", "is", "are", "was", "were"].map String.data

/-- The filtering loop of `_preprocess_query`, in source order: drop stop
words, then drop words of length ≤ 2 (measured before stripping), then
strip punctuation from both ends and keep the word only if it is
non-empty. -/
def filterWords : List (List Char) → List (List Char)
  | [] => []
  | w :: ws =>
    if w ∈ question_words then filterWords ws
    else if w.length ≤ 2 then filterWords ws
    else
      let w' := stripPunct w
      if w' = [] then filterWords ws else w' :: filterWords ws

/-- Python `' '.join(words)`. -/
def joinWords : List (List Char) → List Char
  | [] => []
  | [w] => w
  | w :: v :: ws => w ++ ' ' :: joinWords (v :: ws)

/-- `ConversationRetrievalProcessor._preprocess_query`, character-level:
trim, lower-case and split into words, filter, and return the joined
keywords — or the trimmed original query if fewer than 2 words survive. -/
def _preprocess_query (query : List Char) : List Char :=
  let processed_query := pyStrip query
  let words := splitWs (pyLower processed_query)
  let filtered_words := filterWords words
  if filtered_words.length < 2 then processed_query
  else joinWords filtered_words

example : _preprocess_query "  What is  the capital of France? ".data
    = "the capital france".data := by decide

example : _preprocess_query " Hi ".data = "Hi".data := by decide

example : _preprocess_query "hello at. world".data = "hello at world".data := by decide

example : _preprocess_query "can. elephants swim.".data = "can elephants swim".data := by decide

example : _preprocess_query (_preprocess_query "can. elephants swim.".data)
    = "elephants swim".data := by decide

/-- A gold-relevance judgment (`labels` entry): its `evidence` list (absent
when the key `'evidence'` is missing), its optional `responseType`, and the
computed metric fields `'{metric}@{k}'` stored on the label object
(a dict, modelled as an association list). -/
structure Label where
  evidence : Option (List Evidence)
  responseType : Option String
  scores : List (String × ℝ)

/-- The value stored under one key of a turn dict.  `str` covers query
fields, `docs` the `retrieved_evidence` array, `labelList` the `labels`
array; `other` is an opaque stand-in for any further JSON value
(e.g. the `context` array), which the processor never inspects. -/
inductive Value where
  | str (s : String)
  | docs (ds : List Doc)
  | labelList (ls : List Label)
  | other (tag : String)

/-- A turn record: a Python dict in insertion order. -/
def Turn : Type := List (String × Value)

/-- A dialogue record; the processor only reads its `turns` key
(`none` models a dialogue without a `'turns'` field). -/
structure Dialogue where
  turns : Option (List Turn)

/-- `ConversationRetrievalProcessor._create_new_turn_structure`: build the
new turn dict with keys in the fixed order `query` (if present),
`resolvedQuery` (= the value under `query_key`, if present),
`retrieved_evidence`, `labels` (if present). -/
def _create_new_turn_structure (turn : Turn) (search_results : List Doc)
    (query_key : String) : Turn :=
  (match dictGet "query" turn with
    | some v => [("query", v)]
    | none => []) ++
  (match dictGet query_key turn with
    | some v => [("resolvedQuery", v)]
    | none => []) ++
  [("retrieved_evidence", Value.docs search_results)] ++
  (match dictGet "labels" turn with
    | some v => [("labels", v)]
    | none => [])

/-- The inner body of `_calculate_metrics_for_labels` for one label: skip
labels without an `'evidence'` key, otherwise compute all metrics and
store each `metric_name, score` pair on the label. -/
noncomputable def scoreLabel (search_results : List Doc) (k_values : List ℕ)
    (l : Label) : Label :=
  match l.evidence with
  | none => l
  | some ev =>
    let merged := (calculate_all_metrics search_results ev k_values).foldl
      (fun acc p => dictSet acc p.1 p.2) l.scores
    { l with scores := merged }

/-- `ConversationRetrievalProcessor._calculate_metrics_for_labels`. -/
noncomputable def _calculate_metrics_for_labels (labels : List Label)
    (search_results : List Doc) (k_values : List ℕ) : List Label :=
  labels.map (scoreLabel search_results k_values)

/-- Extract the string payload of a turn value (`turn.get(query_key, '')`
is only ever applied to string-valued query fields). -/
def valueStr : Value → String
  | .str s => s
  | _ => ""

/-- Replace the value stored under `labels` (the in-place mutation of the
label objects reached through `new_turn['labels']`). -/
def setLabels (t : Turn) (ls : List Label) : Turn :=
  t.map (fun p => if p.1 = "labels" then ("labels", Value.labelList ls) else p)

/-- `ConversationRetrievalProcessor._process_single_turn`.  The retrieval
backend is the parameter `search`; a raising backend call is an `.error`
that propagates (there is no `try` in the processor). -/
noncomputable def _process_single_turn
    (search : String → ℕ → Except String (List Doc)) (turn : Turn)
    (query_key : String) (k_values : List ℕ) (calc_scores : Bool) :
    Except String Turn :=
  match dictGet query_key turn with
  | none => .ok turn
  | some v => do
    let query := valueStr v
    let processed_query := _preprocess_query query.data
    let search_results ← search (String.mk processed_query) 10
    let new_turn := _create_new_turn_structure turn search_results query_key
    match calc_scores, dictGet "labels" new_turn with
    | true, some (.labelList ls) =>
      .ok (setLabels new_turn (_calculate_metrics_for_labels ls search_results k_values))
    | _, _ => .ok new_turn

/-- `ConversationRetrievalProcessor._process_turns`: skip a dialogue with
no `turns` key, otherwise replace every turn (query key `resolvedQuery`)
in order. -/
noncomputable def _process_turns (search : String → ℕ → Except String (List Doc))
    (target_data : Dialogue) (k_values : List ℕ) (calc_scores : Bool) :
    Except String Dialogue :=
  match target_data.turns with
  | none => .ok target_data
  | some ts => do
    let ts' ← ts.mapM (fun t => _process_single_turn search t "resolvedQuery" k_values calc_scores)
    .ok { turns := some ts' }

/-- The dataset loop of `ConversationRetrievalProcessor.process_json_file`
(between the JSON load and the JSON dump, which are plain I/O):
`for top_key, target_data in data.items(): self._process_turns(...)`.
There is no exception handling around the loop body, so a raising
dialogue aborts the whole loop. -/
noncomputable def process_json_file (search : String → ℕ → Except String (List Doc))
    (k_values : List ℕ) (calc_scores : Bool) :
    List (String × Dialogue) → Except String (List (String × Dialogue))
  | [] => .ok []
  | p :: ps => do
    let d' ← _process_turns search p.2 k_values calc_scores
    let rest ← process_json_file search k_values calc_scores ps
    .ok ((p.1, d') :: rest)

/-- `metric_types = ['ndcg', 'precision', 'recall']`. -/
def metric_types : List String := ["ndcg", "precision", "recall"]

/-- The key set `f'{metric_type}@{k}'` for every metric type and every
`k`, in the construction order of `_collect_metrics_scores`. -/
def crossKeys (k_values : List ℕ) : List String :=
  metric_types.bind (fun m => k_values.map (fun k => metricKey m k))

/-- The labels scanned by the aggregation pass: every label of every turn
of every dialogue, skipping dialogues without `turns` and turns without
`labels`. -/
def labelsOf (json_data : List (String × Dialogue)) : List Label :=
  json_data.bind (fun p =>
    match p.2.turns with
    | none => []
    | some ts => ts.bind (fun t =>
        match dictGet "labels" t with
        | some (.labelList ls) => ls
        | _ => []))

/-- `ConversationRetrievalProcessor._collect_metrics_scores`: for every
metric key, the list of that key's values over all labels carrying it
(in label-scan order). -/
def _collect_metrics_scores (json_data : List (String × Dialogue))
    (k_values : List ℕ) : List (String × List ℝ) :=
  (crossKeys k_values).map (fun name =>
    (name, (labelsOf json_data).filterMap (fun l => dictGet name l.scores)))

/-- `total_queries = sum(len(scores) for scores in metrics_by_type.values())`
in `calculate_overall_metrics`. -/
def total_queries (json_data : List (String × Dialogue)) (k_values : List ℕ) : ℕ :=
  ((_collect_metrics_scores json_data k_values).map (fun p => p.2.length)).sum

/-- `np.max` over a non-empty score list (the code guards emptiness). -/
def listMax : List ℝ → ℝ
  | [] => 0
  | [x] => x
  | x :: y :: xs => max x (listMax (y :: xs))

/-- `ConversationRetrievalProcessor.calculate_overall_metrics`: per metric
key an `avg_` and `max_` entry (0.0 for an empty list), then the
`num_queries` entry. -/
noncomputable def calculate_overall_metrics (json_data : List (String × Dialogue))
    (k_values : List ℕ) : List (String × ℝ) :=
  ((_collect_metrics_scores json_data k_values).map (fun p =>
      [("avg_" ++ p.1, if p.2 = [] then 0 else p.2.sum / (p.2.length : ℝ)),
       ("max_" ++ p.1, if p.2 = [] then 0 else listMax p.2)])).join ++
  [("num_queries", (total_queries json_data k_values : ℝ))]

/-- The keys of a turn dict, in order. -/
def turnKeys (t : Turn) : List String := t.map Prod.fst

/-- An always-raising retrieval backend. -/
def failSearch : String → ℕ → Except String (List Doc) :=
  fun _ _ => .error "backend unreachable"

theorem turnKeys_setLabels (t : Turn) (ls : List Label) :
    turnKeys (setLabels t ls) = turnKeys t := by
  induction t with
  | nil => rfl
  | cons p ps ih =>
    simp only [setLabels, turnKeys, List.map_cons] at *
    by_cases h : p.1 = "labels" <;> simp [h, ih]

/-- C9: a turn without the query key is returned unchanged, whatever the
backend does (even an always-raising one), with no error. -/
theorem C9_missing_query_key_is_noop
    (search : String → ℕ → Except String (List Doc)) (turn : Turn)
    (k_values : List ℕ) (calc_scores : Bool)
    (h : dictGet "resolvedQuery" turn = none) :
    _process_single_turn search turn "resolvedQuery" k_values calc_scores
      = .ok turn := by
  unfold _process_single_turn
  rw [h]

theorem C9_witness :
    _process_single_turn failSearch [("context", Value.other "ctx")]
      "resolvedQuery" [1, 3, 5] true = .ok [("context", Value.other "ctx")] :=
  C9_missing_query_key_is_noop failSearch [("context", Value.other "ctx")]
    [1, 3, 5] true rfl

/-- C10: a processed turn carries only the fields `query` (when the input
had one), `resolvedQuery`, `retrieved_evidence` and `labels` (when the
input had one); any other input field (e.g. `context`) is absent — both
for the rebuilt structure itself and for the turn `_process_single_turn`
returns. -/
theorem C10_new_turn_field_frame (turn : Turn) (rs : List Doc)
    (h : dictGet "resolvedQuery" turn ≠ none) :
    (turnKeys (_create_new_turn_structure turn rs "resolvedQuery") =
      (if (dictGet "query" turn).isSome then ["query"] else [])
        ++ ["resolvedQuery", "retrieved_evidence"]
        ++ (if (dictGet "labels" turn).isSome then ["labels"] else []))
    ∧ (∀ f : String,
        f ∉ (["query", "resolvedQuery", "retrieved_evidence", "labels"] : List String) →
        dictGet f (_create_new_turn_structure turn rs "resolvedQuery") = none)
    ∧ (∀ (search : String → ℕ → Except String (List Doc)) (k_values : List ℕ)
        (calc_scores : Bool) (nt : Turn),
        _process_single_turn search turn "resolvedQuery" k_values calc_scores = .ok nt →
        ∀ f : String,
        f ∉ (["query", "resolvedQuery", "retrieved_evidence", "labels"] : List String) →
        dictGet f nt = none) := by
  obtain ⟨v, hv⟩ : ∃ v, dictGet "resolvedQuery" turn = some v := by
    cases hq : dictGet "resolvedQuery" turn with
    | none => exact absurd hq h
    | some v => exact ⟨v, rfl⟩
  have frame : ∀ rs' (f : String),
      f ∉ (["query", "resolvedQuery", "retrieved_evidence", "labels"] : List String) →
      dictGet f (_create_new_turn_structure turn rs' "resolvedQuery") = none := by
    intro rs' f hf
    simp only [List.mem_cons, List.not_mem_nil, or_false, not_or] at hf
    obtain ⟨h1, h2, h3, h4⟩ := hf
    unfold _create_new_turn_structure
    rw [hv]
    cases dictGet "query" turn <;> cases dictGet "labels" turn <;>
      simp [dictGet, Ne.symm h1, Ne.symm h2, Ne.symm h3, Ne.symm h4]
  refine ⟨?_, frame rs, ?_⟩
  · unfold _create_new_turn_structure turnKeys
    rw [hv]
    cases dictGet "query" turn <;> cases dictGet "labels" turn <;> rfl
  · intro search k_values calc_scores nt hok f hf
    unfold _process_single_turn at hok
    rw [hv] at hok
    simp only [bind, Except.bind] at hok
    cases hs : search (String.mk (_preprocess_query (valueStr v).data)) 10 with
    | error e => rw [hs] at hok; exact absurd hok (by simp)
    | ok rs' =>
      rw [hs] at hok
      set nt0 := _create_new_turn_structure turn rs' "resolvedQuery" with hnt0
      have frame' := frame rs' f hf
      cases hcb : calc_scores with
      | false => simp only [hcb] at hok; cases hok; exact frame'
      | true =>
        simp only [hcb] at hok
        cases hlab : dictGet "labels" nt0 with
        | none => rw [hlab] at hok; cases hok; exact frame'
        | some lv =>
          rw [hlab] at hok
          cases lv with
          | labelList ls =>
            cases hok
            have : ∀ (t : Turn) (ls' : List Label) (g : String), g ≠ "labels" →
                dictGet g (setLabels t ls') = dictGet g t := by
              intro t ls' g hg
              induction t with
              | nil => rfl
              | cons p ps ih =>
                by_cases hp : p.1 = "labels"
                · simp [setLabels, dictGet, hp, hg, Ne.symm hg] at *
                  exact ih
                · simp [setLabels, dictGet, hp] at *
                  by_cases hpg : p.1 = g <;> simp [hpg, ih]
            have hfl : f ≠ "labels" := by
              simp only [List.mem_cons, List.not_mem_nil, or_false, not_or] at hf
              exact hf.2.2.2
            rw [this nt0 _ f hfl]
            exact frame'
          | str s => cases hok; exact frame'
          | docs ds => cases hok; exact frame'
          | other tg => cases hok; exact frame'

theorem C10_witness :
    dictGet "resolvedQuery"
        ([("resolvedQuery", Value.str "q"), ("context", Value.other "c")] : Turn) ≠ none ∧
    turnKeys (_create_new_turn_structure
        [("resolvedQuery", Value.str "q"), ("context", Value.other "c")]
        [⟨"P1"⟩] "resolvedQuery") = ["resolvedQuery", "retrieved_evidence"] := by
  have hp : dictGet "resolvedQuery"
      ([("resolvedQuery", Value.str "q"), ("context", Value.other "c")] : Turn) ≠ none := by
    simp [dictGet]
  refine ⟨hp, ?_⟩
  have h := (C10_new_turn_field_frame
    [("resolvedQuery", Value.str "q"), ("context", Value.other "c")] [⟨"P1"⟩] hp).1
  simpa [dictGet] using h

/-- A dialogue with one turn that does carry a `resolvedQuery`. -/
def dlgA : Dialogue := ⟨some [[("resolvedQuery", Value.str "what about pandas")]]⟩

/-- A dialogue with an empty turn list (processes without any backend call). -/
def dlgB : Dialogue := ⟨some []⟩

/-- C7 counterexample: with a raising backend, the first dialogue's failure
aborts the whole dataset loop — `process_json_file` returns the error
instead of a transformed dataset, because the loop has no `try`/`except`. -/
theorem C7_counterexample_error_aborts_dataset :
    process_json_file failSearch [1, 3, 5] true [("d1", dlgA), ("d2", dlgB)]
      = .error "backend unreachable" := rfl

/-- C7 (amended): one dialogue's processing failure is *not* isolated: if
any dialogue's `_process_turns` raises, `process_json_file` propagates an
error for the whole dataset rather than logging and continuing. -/
theorem C7_error_propagates (search : String → ℕ → Except String (List Doc))
    (data : List (String × Dialogue)) (k_values : List ℕ) (calc_scores : Bool)
    (p : String × Dialogue) (e : String)
    (hmem : p ∈ data)
    (herr : _process_turns search p.2 k_values calc_scores = .error e) :
    ∃ e', process_json_file search k_values calc_scores data = .error e' := by
  induction data with
  | nil => cases hmem
  | cons q qs ih =>
    cases hq : _process_turns search q.2 k_values calc_scores with
    | error e' =>
      exact ⟨e', by simp [process_json_file, hq, bind, Except.bind]⟩
    | ok d' =>
      rcases List.mem_cons.mp hmem with rfl | hmem'
      · rw [hq] at herr
        exact absurd herr (by simp)
      · obtain ⟨e', he'⟩ := ih hmem'
        refine ⟨e', ?_⟩
        simp [process_json_file, hq, he', bind, Except.bind]

theorem C7_witness :
    ("d1", dlgA) ∈ [("d1", dlgA), ("d2", dlgB)] ∧
    ∃ e', process_json_file failSearch [1, 3, 5] true [("d1", dlgA), ("d2", dlgB)]
      = .error e' :=
  ⟨List.mem_cons_self _ _,
    C7_error_propagates failSearch [("d1", dlgA), ("d2", dlgB)] [1, 3, 5] true
      ("d1", dlgA) "backend unreachable" (List.mem_cons_self _ _) rfl⟩

theorem foldl_dictSet_fresh {α : Type} (f : ℕ → String) (v : ℕ → α) :
    ∀ (ks : List ℕ) (acc : List (String × α)),
    (∀ k ∈ ks, ∀ p ∈ acc, p.1 ≠ f k) → (ks.map f).Nodup →
    ks.foldl (fun a k => dictSet a (f k) (v k)) acc
      = acc ++ ks.map (fun k => (f k, v k)) := by
  intro ks
  induction ks with
  | nil => intro acc _ _; simp
  | cons k ks' ih =>
    intro acc hfresh hnd
    have hnotin : acc.any (fun p => decide (p.1 = f k)) = false := by
      rw [List.any_eq_false]
      intro p hp
      simpa using hfresh k (List.mem_cons_self _ _) p hp
    have hstep : dictSet acc (f k) (v k) = acc ++ [(f k, v k)] := by
      unfold dictSet
      rw [hnotin]
      simp
    simp only [List.foldl_cons, hstep]
    rw [ih (acc ++ [(f k, v k)]) ?_ ?_]
    · simp
    · intro k' hk' p hp
      rcases List.mem_append.mp hp with hpa | hpn
      · exact hfresh k' (List.mem_cons_of_mem _ hk') p hpa
      · simp only [List.mem_singleton] at hpn
        subst hpn
        simp only [List.map_cons, List.nodup_cons] at hnd
        intro hcon
        have hcon' : f k = f k' := hcon
        exact hnd.1 (by rw [hcon']; exact List.mem_map_of_mem f hk')
    · simp only [List.map_cons, List.nodup_cons] at hnd
      exact hnd.2

theorem crossKeys_decompose (k_values : List ℕ) :
    crossKeys k_values
      = k_values.map (metricKey "ndcg")
        ++ k_values.map (metricKey "precision")
        ++ k_values.map (metricKey "recall") := by
  simp [crossKeys, metric_types]

/-- C3: when the generated keys collide nowhere (which holds for any
duplicate-free `k_values`), the batch entry point returns exactly the
cross product {ndcg, precision, recall} × k_values, each key paired with
the value of the corresponding single-metric function on the same
arguments. -/
theorem C3_all_metrics_is_cross_product (retrieved : List Doc)
    (gold : List Evidence) (k_values : List ℕ)
    (hnd : (crossKeys k_values).Nodup) :
    calculate_all_metrics retrieved gold k_values
      = k_values.map (fun k => (metricKey "ndcg" k, calculate_ndcg retrieved gold (some k)))
        ++ k_values.map (fun k => (metricKey "precision" k, calculate_precision_at_k retrieved gold (some k)))
        ++ k_values.map (fun k => (metricKey "recall" k, calculate_recall_at_k retrieved gold (some k))) := by
  rw [crossKeys_decompose] at hnd
  rw [List.append_assoc] at hnd
  obtain ⟨hndN, hndPR, hdisjN⟩ := List.nodup_append.mp hnd
  obtain ⟨hndP, hndR, hdisjPR⟩ := List.nodup_append.mp hndPR
  have freshP : ∀ k ∈ k_values,
      ∀ p ∈ k_values.map (fun k => (metricKey "ndcg" k, calculate_ndcg retrieved gold (some k))),
      p.1 ≠ metricKey "precision" k := by
    intro k hk p hp
    obtain ⟨k', hk', hk'e⟩ := List.mem_map.mp hp
    rw [← hk'e]
    intro hcon
    have hcon' : metricKey "ndcg" k' = metricKey "precision" k := hcon
    exact hdisjN (List.mem_map_of_mem _ hk')
      (by rw [hcon']; exact List.mem_append_left _ (List.mem_map_of_mem _ hk))
  have freshR : ∀ k ∈ k_values,
      ∀ p ∈ (k_values.map (fun k => (metricKey "ndcg" k, calculate_ndcg retrieved gold (some k)))
        ++ k_values.map (fun k => (metricKey "precision" k, calculate_precision_at_k retrieved gold (some k)))),
      p.1 ≠ metricKey "recall" k := by
    intro k hk p hp
    rcases List.mem_append.mp hp with hpn | hpp
    · obtain ⟨k', hk', hk'e⟩ := List.mem_map.mp hpn
      rw [← hk'e]
      intro hcon
      have hcon' : metricKey "ndcg" k' = metricKey "recall" k := hcon
      exact hdisjN (List.mem_map_of_mem _ hk')
        (by rw [hcon']; exact List.mem_append_right _ (List.mem_map_of_mem _ hk))
    · obtain ⟨k', hk', hk'e⟩ := List.mem_map.mp hpp
      rw [← hk'e]
      intro hcon
      have hcon' : metricKey "precision" k' = metricKey "recall" k := hcon
      exact hdisjPR (List.mem_map_of_mem _ hk')
        (by rw [hcon']; exact List.mem_map_of_mem _ hk)
  unfold calculate_all_metrics
  rw [foldl_dictSet_fresh (metricKey "ndcg")
      (fun k => calculate_ndcg retrieved gold (some k)) k_values [] (by simp) hndN]
  rw [List.nil_append]
  rw [foldl_dictSet_fresh (metricKey "precision")
      (fun k => calculate_precision_at_k retrieved gold (some k)) k_values _ freshP hndP]
  rw [foldl_dictSet_fresh (metricKey "recall")
      (fun k => calculate_recall_at_k retrieved gold (some k)) k_values _ freshR hndR]

theorem C3_witness :
    (crossKeys [1, 3, 5]).Nodup ∧
    calculate_all_metrics [⟨"A"⟩] [Evidence.str "A"] [1, 3, 5]
      = [1, 3, 5].map (fun k => (metricKey "ndcg" k, calculate_ndcg [⟨"A"⟩] [Evidence.str "A"] (some k)))
        ++ [1, 3, 5].map (fun k => (metricKey "precision" k, calculate_precision_at_k [⟨"A"⟩] [Evidence.str "A"] (some k)))
        ++ [1, 3, 5].map (fun k => (metricKey "recall" k, calculate_recall_at_k [⟨"A"⟩] [Evidence.str "A"] (some k))) :=
  ⟨by decide, C3_all_metrics_is_cross_product [⟨"A"⟩] [Evidence.str "A"] [1, 3, 5] (by decide)⟩

theorem dcgList_eq_sum (G : Finset String) (l : List Doc) : ∀ i0 : ℕ,
    dcgList G l i0 = ∑ j in Finset.range l.length,
      (if (l.getD j default).passage_id ∈ G then (1 : ℝ) else 0)
        / Real.logb 2 (((i0 + j : ℕ) : ℝ) + 2) := by
  induction l with
  | nil => intro i0; simp [dcgList]
  | cons d ds ih =>
    intro i0
    simp only [dcgList, List.length_cons, Finset.sum_range_succ']
    rw [ih (i0 + 1), add_comm]
    congr 1
    · apply Finset.sum_congr rfl
      intro j _
      have harith : i0 + 1 + j = i0 + (j + 1) := by ring
      simp [List.getD_cons_succ, harith]

theorem idcgSum_eq_sum (n : ℕ) :
    idcgSum n = ∑ i in Finset.range n, 1 / Real.logb 2 ((i : ℝ) + 2) := by
  induction n with
  | zero => simp [idcgSum]
  | succ m ih => simp only [idcgSum, ih, Finset.sum_range_succ]

/-- The nDCG@k formula exactly as the claim words it: DCG is the sum over
the first `k` retrieved documents of `relevance(i) / log2(i+2)` with
0-indexed rank `i`, IDCG is the sum of `1 / log2(i+2)` for
`i < min(|gold set|, k)`, and the result is `DCG / IDCG`, or `0.0` when
`IDCG = 0`. -/
noncomputable def ndcg_spec (retrieved : List Doc) (gold : List Evidence)
    (k? : Option ℕ) : ℝ :=
  let k := effK retrieved k?
  let G := _get_gold_ids gold
  let taken := retrieved.take k
  let dcg := ∑ i in Finset.range taken.length,
    (if (taken.getD i default).passage_id ∈ G then (1 : ℝ) else 0)
      / Real.logb 2 ((i : ℝ) + 2)
  let idcg := ∑ i in Finset.range (min G.card k), 1 / Real.logb 2 ((i : ℝ) + 2)
  if idcg = 0 then 0 else dcg / idcg

/-- C1: `calculate_ndcg` computes binary-relevance nDCG@k exactly as the
spec formula states, and on the scenario `retrieved = [A, B, C]`,
`gold = {B}`, `k = 3` it returns `1 / log2 3`. -/
theorem C1_ndcg_formula_and_scenario :
    (∀ (retrieved : List Doc) (gold : List Evidence) (k? : Option ℕ),
      calculate_ndcg retrieved gold k? = ndcg_spec retrieved gold k?)
    ∧ calculate_ndcg [⟨"A"⟩, ⟨"B"⟩, ⟨"C"⟩] [Evidence.str "B"] (some 3)
        = 1 / Real.logb 2 3 := by
  constructor
  · intro retrieved gold k?
    simp only [calculate_ndcg, ndcg_spec]
    rw [dcgList_eq_sum, idcgSum_eq_sum]
    simp
  · have hG : _get_gold_ids [Evidence.str "B"] = {"B"} := by
      simp [_get_gold_ids]
    have hlogb2 : Real.logb 2 2 = 1 := Real.logb_self_eq_one one_lt_two
    simp only [calculate_ndcg]
    rw [hG]
    have hcard : ({"B"} : Finset String).card = 1 := rfl
    rw [hcard]
    have htake : ([⟨"A"⟩, ⟨"B"⟩, ⟨"C"⟩] : List Doc).take (effK [⟨"A"⟩, ⟨"B"⟩, ⟨"C"⟩] (some 3))
        = [⟨"A"⟩, ⟨"B"⟩, ⟨"C"⟩] := rfl
    rw [htake]
    have hmin : min 1 (effK [⟨"A"⟩, ⟨"B"⟩, ⟨"C"⟩] (some 3)) = 1 := rfl
    rw [hmin]
    have hidcg : idcgSum 1 = 1 := by
      simp [idcgSum, hlogb2]
    rw [hidcg]
    have hdcg : dcgList {"B"} [⟨"A"⟩, ⟨"B"⟩, ⟨"C"⟩] 0 = 1 / Real.logb 2 3 := by
      have hA : ¬ ("A" : String) ∈ ({"B"} : Finset String) := by decide
      have hB : ("B" : String) ∈ ({"B"} : Finset String) := by decide
      have hC : ¬ ("C" : String) ∈ ({"B"} : Finset String) := by decide
      simp only [dcgList, if_neg hA, if_pos hB, if_neg hC]
      norm_num
    rw [hdcg]
    norm_num

/-- C6: the metric functions are total, and on empty inputs they return
the defined defaults: with an empty gold-id set, recall and nDCG are `0.0`
(no division happens), and precision is `0.0` whenever the effective `k`
is `0` — zero denominators resolve to `0.0`, never an error. -/
theorem C6_empty_inputs_yield_zero (retrieved : List Doc) (gold : List Evidence)
    (k? : Option ℕ) :
    (_get_gold_ids gold = ∅ →
      calculate_recall_at_k retrieved gold k? = 0
        ∧ calculate_ndcg retrieved gold k? = 0)
    ∧ (effK retrieved k? = 0 → calculate_precision_at_k retrieved gold k? = 0) := by
  constructor
  · intro hg
    constructor
    · simp [calculate_recall_at_k, hg]
    · simp [calculate_ndcg, hg, idcgSum]
  · intro hk
    simp [calculate_precision_at_k, hk]

theorem C6_witness :
    (_get_gold_ids [] = ∅
      ∧ calculate_recall_at_k [⟨"X"⟩] [] (some 5) = 0
      ∧ calculate_ndcg [⟨"X"⟩] [] (some 5) = 0)
    ∧ (effK [⟨"X"⟩] (some 0) = 0
      ∧ calculate_precision_at_k [⟨"X"⟩] [] (some 0) = 0) :=
  ⟨⟨rfl, ((C6_empty_inputs_yield_zero [⟨"X"⟩] [] (some 5)).1 rfl).1,
      ((C6_empty_inputs_yield_zero [⟨"X"⟩] [] (some 5)).1 rfl).2⟩,
    ⟨rfl, (C6_empty_inputs_yield_zero [⟨"X"⟩] [] (some 0)).2 rfl⟩⟩

/-- The rank discount `1 / log2(j + 2)` at 0-indexed rank `j`. -/
noncomputable def discountW (j : ℕ) : ℝ := 1 / Real.logb 2 ((j : ℝ) + 2)

theorem logb_rank_pos (j : ℕ) : 0 < Real.logb 2 ((j : ℝ) + 2) := by
  apply Real.logb_pos one_lt_two
  have : (0 : ℝ) ≤ (j : ℝ) := Nat.cast_nonneg j
  linarith

theorem discountW_pos (j : ℕ) : 0 < discountW j :=
  one_div_pos.mpr (logb_rank_pos j)

theorem discountW_antitone {i j : ℕ} (h : i ≤ j) : discountW j ≤ discountW i := by
  apply one_div_le_one_div_of_le (logb_rank_pos i)
  apply Real.logb_le_logb_of_le one_lt_two
  · have : (0 : ℝ) ≤ (i : ℝ) := Nat.cast_nonneg i
    linarith
  · have : (i : ℝ) ≤ (j : ℝ) := Nat.cast_le.mpr h
    linarith

theorem idcgSum_eq_discount_sum (n : ℕ) :
    idcgSum n = ∑ i in Finset.range n, discountW i := by
  rw [idcgSum_eq_sum]
  rfl

theorem idcgSum_nonneg (n : ℕ) : 0 ≤ idcgSum n := by
  rw [idcgSum_eq_discount_sum]
  exact Finset.sum_nonneg fun i _ => (discountW_pos i).le

theorem dcgList_nonneg (G : Finset String) (l : List Doc) : ∀ i0 : ℕ,
    0 ≤ dcgList G l i0 := by
  induction l with
  | nil => intro i0; simp [dcgList]
  | cons d ds ih =>
    intro i0
    simp only [dcgList]
    have h1 : 0 ≤ (if d.passage_id ∈ G then (1 : ℝ) else 0) / Real.logb 2 ((i0 : ℝ) + 2) := by
      apply div_nonneg _ (logb_rank_pos i0).le
      by_cases hd : d.passage_id ∈ G <;> simp [hd]
    linarith [ih (i0 + 1)]

/-- The DCG of a list is at most the sum of the largest discounts, one per
relevant document found. -/
theorem dcgList_le_hit_sum (G : Finset String) (l : List Doc) : ∀ i0 : ℕ,
    dcgList G l i0 ≤ ∑ j in Finset.range (relevantCount G l), discountW (i0 + j) := by
  induction l with
  | nil => intro i0; simp [dcgList, relevantCount]
  | cons d ds ih =>
    intro i0
    by_cases hd : d.passage_id ∈ G
    · have hrc : relevantCount G (d :: ds) = relevantCount G ds + 1 := by
        simp [relevantCount, List.filter, hd]
      simp only [dcgList, hrc, if_pos hd, Finset.sum_range_succ']
      have hterm : (1 : ℝ) / Real.logb 2 ((i0 : ℝ) + 2) = discountW (i0 + 0) := by
        simp [discountW]
      rw [hterm, add_comm]
      have hrest : dcgList G ds (i0 + 1)
          ≤ ∑ j in Finset.range (relevantCount G ds), discountW (i0 + (j + 1)) := by
        have := ih (i0 + 1)
        convert this using 2 with j
        ring_nf
      linarith
    · have hrc : relevantCount G (d :: ds) = relevantCount G ds := by
        simp [relevantCount, List.filter, hd]
      simp only [dcgList, hrc, if_neg hd, zero_div, zero_add]
      calc dcgList G ds (i0 + 1)
          ≤ ∑ j in Finset.range (relevantCount G ds), discountW ((i0 + 1) + j) := ih (i0 + 1)
        _ ≤ ∑ j in Finset.range (relevantCount G ds), discountW (i0 + j) := by
            apply Finset.sum_le_sum
            intro j _
            exact discountW_antitone (by omega)

theorem relevantCount_le_length (G : Finset String) (l : List Doc) :
    relevantCount G l ≤ l.length :=
  List.length_filter_le _ l

theorem relevantCount_le_card (G : Finset String) (l : List Doc)
    (hnd : (l.map Doc.passage_id).Nodup) : relevantCount G l ≤ G.card := by
  have hsub : (l.filter (fun d => decide (d.passage_id ∈ G))).map Doc.passage_id
      |>.Sublist (l.map Doc.passage_id) :=
    List.Sublist.map _ (List.filter_sublist l)
  have hnd' : ((l.filter (fun d => decide (d.passage_id ∈ G))).map Doc.passage_id).Nodup :=
    hnd.sublist hsub
  have hlen : relevantCount G l
      = ((l.filter (fun d => decide (d.passage_id ∈ G))).map Doc.passage_id).length := by
    simp [relevantCount]
  rw [hlen, ← List.toFinset_card_of_nodup hnd']
  apply Finset.card_le_card
  intro x hx
  rw [List.mem_toFinset] at hx
  obtain ⟨d, hd, hdx⟩ := List.mem_map.mp hx
  rw [List.mem_filter] at hd
  have := hd.2
  simp only [decide_eq_true_eq] at this
  rwa [← hdx]

/-- With no duplicate retrieved ids, DCG never exceeds IDCG. -/
theorem dcg_le_idcg (G : Finset String) (retrieved : List Doc) (k : ℕ)
    (hnd : (retrieved.map Doc.passage_id).Nodup) :
    dcgList G (retrieved.take k) 0 ≤ idcgSum (min G.card k) := by
  have hndt : ((retrieved.take k).map Doc.passage_id).Nodup :=
    hnd.sublist (List.Sublist.map _ (List.take_sublist k retrieved))
  have hle : relevantCount G (retrieved.take k) ≤ min G.card k := by
    apply le_min
    · exact relevantCount_le_card G _ hndt
    · calc relevantCount G (retrieved.take k) ≤ (retrieved.take k).length :=
            relevantCount_le_length G _
        _ ≤ k := by
            rw [List.length_take]
            exact min_le_left _ _
  calc dcgList G (retrieved.take k) 0
      ≤ ∑ j in Finset.range (relevantCount G (retrieved.take k)), discountW (0 + j) :=
        dcgList_le_hit_sum G _ 0
    _ = ∑ j in Finset.range (relevantCount G (retrieved.take k)), discountW j := by
        apply Finset.sum_congr rfl
        intro j _
        rw [Nat.zero_add]
    _ ≤ ∑ j in Finset.range (min G.card k), discountW j := by
        apply Finset.sum_le_sum_of_subset_of_nonneg
        · exact Finset.range_subset.mpr hle
        · intro j _ _
          exact (discountW_pos j).le
    _ = idcgSum (min G.card k) := (idcgSum_eq_discount_sum _).symm

/-- C2 counterexample: with duplicate retrieved passage ids the claim
fails — for `retrieved = [B, B]`, `gold = {B}`, `k = 2`, recall@2 is `2.0`,
outside `[0, 1]`. -/
theorem C2_counterexample_duplicate_ids :
    1 < calculate_recall_at_k [⟨"B"⟩, ⟨"B"⟩] [Evidence.str "B"] (some 2) := by
  have hG : _get_gold_ids [Evidence.str "B"] = {"B"} := by simp [_get_gold_ids]
  have hrc : relevantCount {"B"} (([⟨"B"⟩, ⟨"B"⟩] : List Doc).take (effK [⟨"B"⟩, ⟨"B"⟩] (some 2)))
      = 2 := by decide
  have hcard : ({"B"} : Finset String).card = 1 := rfl
  simp only [calculate_recall_at_k, hG, hrc, hcard]
  norm_num

/-- C2 (amended): whenever the retrieved list carries pairwise-distinct
passage ids — the documented invariant of a backend result list —
precision@k, recall@k and nDCG@k all lie in `[0, 1]`, for every gold list
and every cutoff. -/
theorem C2_amended_metrics_bounded (retrieved : List Doc) (gold : List Evidence)
    (k? : Option ℕ) (hnd : (retrieved.map Doc.passage_id).Nodup) :
    (0 ≤ calculate_precision_at_k retrieved gold k?
      ∧ calculate_precision_at_k retrieved gold k? ≤ 1)
    ∧ (0 ≤ calculate_recall_at_k retrieved gold k?
      ∧ calculate_recall_at_k retrieved gold k? ≤ 1)
    ∧ (0 ≤ calculate_ndcg retrieved gold k?
      ∧ calculate_ndcg retrieved gold k? ≤ 1) := by
  set k := effK retrieved k? with hk
  set G := _get_gold_ids gold with hG
  have hndt : ((retrieved.take k).map Doc.passage_id).Nodup :=
    hnd.sublist (List.Sublist.map _ (List.take_sublist k retrieved))
  refine ⟨⟨?_, ?_⟩, ⟨?_, ?_⟩, ⟨?_, ?_⟩⟩
  · simp only [calculate_precision_at_k, ← hk, ← hG]
    by_cases h0 : 0 < k
    · rw [if_pos h0]
      positivity
    · rw [if_neg h0]
  · simp only [calculate_precision_at_k, ← hk, ← hG]
    by_cases h0 : 0 < k
    · rw [if_pos h0]
      rw [div_le_one (by exact_mod_cast h0)]
      have : relevantCount G (retrieved.take k) ≤ k := by
        calc relevantCount G (retrieved.take k) ≤ (retrieved.take k).length :=
              relevantCount_le_length G _
          _ ≤ k := by rw [List.length_take]; exact min_le_left _ _
      exact_mod_cast this
    · rw [if_neg h0]
      norm_num
  · simp only [calculate_recall_at_k, ← hk, ← hG]
    by_cases h0 : G.card = 0
    · rw [if_pos h0]
    · rw [if_neg h0]
      positivity
  · simp only [calculate_recall_at_k, ← hk, ← hG]
    by_cases h0 : G.card = 0
    · rw [if_pos h0]
      norm_num
    · rw [if_neg h0]
      rw [div_le_one (by exact_mod_cast Nat.pos_of_ne_zero h0)]
      exact_mod_cast relevantCount_le_card G _ hndt
  · simp only [calculate_ndcg, ← hk, ← hG]
    by_cases h0 : idcgSum (min G.card k) = 0
    · rw [if_pos h0]
    · rw [if_neg h0]
      have hpos : 0 < idcgSum (min G.card k) := lt_of_le_of_ne (idcgSum_nonneg _) (Ne.symm h0)
      exact div_nonneg (dcgList_nonneg G _ 0) hpos.le
  · simp only [calculate_ndcg, ← hk, ← hG]
    by_cases h0 : idcgSum (min G.card k) = 0
    · rw [if_pos h0]
      norm_num
    · rw [if_neg h0]
      have hpos : 0 < idcgSum (min G.card k) := lt_of_le_of_ne (idcgSum_nonneg _) (Ne.symm h0)
      rw [div_le_one hpos]
      exact dcg_le_idcg G retrieved k hnd

theorem C2_witness :
    (([⟨"A"⟩, ⟨"B"⟩] : List Doc).map Doc.passage_id).Nodup ∧
    (0 ≤ calculate_ndcg [⟨"A"⟩, ⟨"B"⟩] [Evidence.str "B"] (some 2)
      ∧ calculate_ndcg [⟨"A"⟩, ⟨"B"⟩] [Evidence.str "B"] (some 2) ≤ 1) :=
  ⟨by decide,
    (C2_amended_metrics_bounded [⟨"A"⟩, ⟨"B"⟩] [Evidence.str "B"] (some 2) (by decide)).2.2⟩

theorem length_filterMap_of_isSome {α β : Type} (f : α → Option β) :
    ∀ L : List α, (∀ x ∈ L, (f x).isSome) → (L.filterMap f).length = L.length := by
  intro L
  induction L with
  | nil => intro _; rfl
  | cons x xs ih =>
    intro hall
    obtain ⟨b, hb⟩ := Option.isSome_iff_exists.mp (hall x (List.mem_cons_self _ _))
    rw [List.filterMap_cons, hb]
    simp only [List.length_cons]
    rw [ih (fun y hy => hall y (List.mem_cons_of_mem _ hy))]

theorem sum_map_const_nat {α : Type} (l : List α) (c : ℕ) :
    (l.map (fun _ => c)).sum = l.length * c := by
  induction l with
  | nil => simp
  | cons x xs ih => simp [ih, Nat.succ_mul, Nat.add_comm]

theorem crossKeys_length (k_values : List ℕ) :
    (crossKeys k_values).length = 3 * k_values.length := by
  rw [crossKeys_decompose]
  simp [List.length_append]
  ring

/-- A fully scored label: all three metrics at `k = 1`. -/
def cexLabel : Label :=
  ⟨some [Evidence.str "P"], some "PTKB",
    [("ndcg@1", 1), ("precision@1", 1), ("recall@1", 1)]⟩

/-- A dataset with exactly one scored label in one turn of one dialogue. -/
def cexData : List (String × Dialogue) :=
  [("d1", ⟨some [[("labels", Value.labelList [cexLabel])]]⟩)]

/-- C8 counterexample: on a dataset with a single scored label and
`k_values = [1]`, the `num_queries` figure is `3` (one per metric/k
observation), not `1` (one per scored label as the claim states). -/
theorem C8_counterexample_num_queries_overcounts :
    dictGet "num_queries" (calculate_overall_metrics cexData [1]) = some ((3 : ℕ) : ℝ)
      ∧ total_queries cexData [1] = 3
      ∧ (labelsOf cexData).length = 1 := by
  refine ⟨rfl, rfl, rfl⟩

/-- C8 (amended): `num_queries` is the total number of collected
metric observations — when every label carries every `{metric}@{k}`
field, it equals `3 · |k_values| · (number of scored labels)`, not the
number of labels. -/
theorem C8_amended_num_queries_counts_observations
    (json_data : List (String × Dialogue)) (k_values : List ℕ)
    (hall : ∀ l ∈ labelsOf json_data, ∀ name ∈ crossKeys k_values,
      (dictGet name l.scores).isSome) :
    total_queries json_data k_values
      = 3 * k_values.length * (labelsOf json_data).length := by
  unfold total_queries _collect_metrics_scores
  rw [List.map_map]
  have hcongr : (crossKeys k_values).map
        ((fun p : String × List ℝ => p.2.length) ∘
          (fun name => (name, (labelsOf json_data).filterMap (fun l => dictGet name l.scores))))
      = (crossKeys k_values).map (fun _ => (labelsOf json_data).length) := by
    apply List.map_congr_left
    intro name hname
    simp only [Function.comp]
    exact length_filterMap_of_isSome _ _ (fun l hl => hall l hl name hname)
  rw [hcongr, sum_map_const_nat, crossKeys_length]

theorem C8_witness :
    (∀ l ∈ labelsOf cexData, ∀ name ∈ crossKeys [1], (dictGet name l.scores).isSome) ∧
    total_queries cexData [1] = 3 * [1].length * (labelsOf cexData).length :=
  ⟨by decide, C8_amended_num_queries_counts_observations cexData [1] (by decide)⟩

theorem toNat_ofNat_valid {n : ℕ} (h : n.isValidChar) : (Char.ofNat n).toNat = n := by
  simp only [Char.ofNat]
  rw [dif_pos h]
  rfl

theorem lowerChar_idem (c : Char) : lowerChar (lowerChar c) = lowerChar c := by
  unfold lowerChar
  by_cases h : 65 ≤ c.toNat ∧ c.toNat ≤ 90
  · rw [if_pos h]
    have hvalid : (c.toNat + 32).isValidChar := Or.inl (by omega)
    have htn : (Char.ofNat (c.toNat + 32)).toNat = c.toNat + 32 := toNat_ofNat_valid hvalid
    rw [if_neg]
    rw [htn]
    omega
  · rw [if_neg h, if_neg h]

/-- The head (if any) of `dropWhile p l` does not satisfy `p`. -/
theorem head_dropWhile_false (p : Char → Bool) :
    ∀ l : List Char, ∀ c, (l.dropWhile p).head? = some c → p c = false := by
  intro l
  induction l with
  | nil => intro c hc; cases hc
  | cons a as ih =>
    intro c hc
    rw [List.dropWhile_cons] at hc
    by_cases ha : p a
    · rw [if_pos ha] at hc
      exact ih c hc
    · rw [if_neg ha] at hc
      cases hc
      exact Bool.eq_false_iff.mpr ha

theorem dropWhile_eq_self_of_head (p : Char → Bool) (l : List Char)
    (h : ∀ c, l.head? = some c → p c = false) : l.dropWhile p = l := by
  cases l with
  | nil => rfl
  | cons a as =>
    rw [List.dropWhile_cons, if_neg]
    rw [h a rfl]
    simp

theorem getLast?_dropWhile (p : Char → Bool) (l : List Char)
    (h : l.dropWhile p ≠ []) : (l.dropWhile p).getLast? = l.getLast? := by
  obtain ⟨t, ht⟩ := (List.dropWhile_suffix p (l := l))
  conv_rhs => rw [← ht]
  rw [List.getLast?_append]
  cases hgl : (l.dropWhile p).getLast? with
  | none => exact absurd (List.getLast?_eq_none_iff.mp hgl) h
  | some c => simp [hgl]

theorem stripEnds_idem (p : Char → Bool) (l : List Char) :
    stripEnds p (stripEnds p l) = stripEnds p l := by
  unfold stripEnds
  set a := l.dropWhile p with ha
  set b := a.reverse.dropWhile p with hb
  have hb_head : ∀ c, b.head? = some c → p c = false := head_dropWhile_false p a.reverse
  have hstep1 : b.reverse.dropWhile p = b.reverse := by
    apply dropWhile_eq_self_of_head
    intro c hc
    rw [List.head?_reverse] at hc
    by_cases hbe : b = []
    · rw [hbe] at hc; cases hc
    · rw [hb, getLast?_dropWhile p a.reverse hbe, List.getLast?_reverse] at hc
      exact head_dropWhile_false p l c (ha ▸ hc)
  rw [hstep1, List.reverse_reverse]
  rw [dropWhile_eq_self_of_head p b hb_head]

theorem mem_stripEnds (p : Char → Bool) (l : List Char) {c : Char}
    (h : c ∈ stripEnds p l) : c ∈ l := by
  unfold stripEnds at h
  rw [List.mem_reverse] at h
  have h1 := List.dropWhile_subset (l := (l.dropWhile p).reverse) p h
  rw [List.mem_reverse] at h1
  exact List.dropWhile_subset p h1

theorem mem_of_getLast?_eq : ∀ (l : List Char) (c : Char), l.getLast? = some c → c ∈ l := by
  intro l
  induction l with
  | nil => intro c hc; cases hc
  | cons a l' ih =>
    intro c hc
    cases l' with
    | nil => cases hc; exact List.mem_singleton_self _
    | cons b l'' =>
      rw [List.getLast?_cons_cons] at hc
      exact List.mem_cons_of_mem _ (ih c hc)

/-- Every word produced by `splitWsAux` is non-empty, whitespace-free, and
made of characters of the accumulator or of the input. -/
theorem mem_splitWsAux : ∀ (l acc : List Char), (∀ c ∈ acc, isWs c = false) →
    ∀ w ∈ splitWsAux acc l, w ≠ [] ∧ ∀ c ∈ w, isWs c = false ∧ (c ∈ acc ∨ c ∈ l) := by
  intro l
  induction l with
  | nil =>
    intro acc hacc w hw
    unfold splitWsAux at hw
    by_cases ha : acc = []
    · rw [if_pos ha] at hw; cases hw
    · rw [if_neg ha] at hw
      rw [List.mem_singleton] at hw
      subst hw
      refine ⟨by simpa using ha, ?_⟩
      intro c hc
      rw [List.mem_reverse] at hc
      exact ⟨hacc c hc, Or.inl hc⟩
  | cons a as ih =>
    intro acc hacc w hw
    unfold splitWsAux at hw
    by_cases hws : isWs a
    · rw [if_pos hws] at hw
      by_cases ha : acc = []
      · rw [if_pos ha] at hw
        obtain ⟨h1, h2⟩ := ih [] (by intro c hc; cases hc) w hw
        refine ⟨h1, ?_⟩
        intro c hc
        obtain ⟨hc1, hc2⟩ := h2 c hc
        rcases hc2 with hc2 | hc2
        · cases hc2
        · exact ⟨hc1, Or.inr (List.mem_cons_of_mem _ hc2)⟩
      · rw [if_neg ha] at hw
        rcases List.mem_cons.mp hw with rfl | hw'
        · refine ⟨by simpa using ha, ?_⟩
          intro c hc
          rw [List.mem_reverse] at hc
          exact ⟨hacc c hc, Or.inl hc⟩
        · obtain ⟨h1, h2⟩ := ih [] (by intro c hc; cases hc) w hw'
          refine ⟨h1, ?_⟩
          intro c hc
          obtain ⟨hc1, hc2⟩ := h2 c hc
          rcases hc2 with hc2 | hc2
          · cases hc2
          · exact ⟨hc1, Or.inr (List.mem_cons_of_mem _ hc2)⟩
    · rw [if_neg hws] at hw
      have hacc' : ∀ c ∈ a :: acc, isWs c = false := by
        intro c hc
        rcases List.mem_cons.mp hc with rfl | hc'
        · exact Bool.eq_false_iff.mpr hws
        · exact hacc c hc'
      obtain ⟨h1, h2⟩ := ih (a :: acc) hacc' w hw
      refine ⟨h1, ?_⟩
      intro c hc
      obtain ⟨hc1, hc2⟩ := h2 c hc
      rcases hc2 with hc2 | hc2
      · rcases List.mem_cons.mp hc2 with rfl | hc3
        · exact ⟨hc1, Or.inr (List.mem_cons_self _ _)⟩
        · exact ⟨hc1, Or.inl hc3⟩
      · exact ⟨hc1, Or.inr (List.mem_cons_of_mem _ hc2)⟩

theorem mem_splitWs (l : List Char) :
    ∀ w ∈ splitWs l, w ≠ [] ∧ ∀ c ∈ w, isWs c = false ∧ c ∈ l := by
  intro w hw
  obtain ⟨h1, h2⟩ := mem_splitWsAux l [] (by intro c hc; cases hc) w hw
  refine ⟨h1, ?_⟩
  intro c hc
  obtain ⟨hc1, hc2⟩ := h2 c hc
  rcases hc2 with hc2 | hc2
  · cases hc2
  · exact ⟨hc1, hc2⟩

theorem splitWsAux_nil (acc : List Char) :
    splitWsAux acc [] = if acc = [] then [] else [acc.reverse] := rfl

theorem splitWsAux_cons (acc : List Char) (c : Char) (cs : List Char) :
    splitWsAux acc (c :: cs) =
      if isWs c = true then
        (if acc = [] then splitWsAux [] cs else acc.reverse :: splitWsAux [] cs)
      else splitWsAux (c :: acc) cs := rfl

/-- Scanning a whitespace-free block prepends it (reversed) to the
accumulator. -/
theorem splitWsAux_append_word : ∀ (w acc r : List Char),
    (∀ c ∈ w, isWs c = false) →
    splitWsAux acc (w ++ r) = splitWsAux (w.reverse ++ acc) r := by
  intro w
  induction w with
  | nil => intro acc r _; simp
  | cons c w' ih =>
    intro acc r hw
    have hc : isWs c = false := hw c (List.mem_cons_self _ _)
    show splitWsAux acc (c :: (w' ++ r)) = _
    rw [splitWsAux_cons, hc]
    simp only [Bool.false_eq_true, if_false]
    rw [ih (c :: acc) r (fun d hd => hw d (List.mem_cons_of_mem _ hd))]
    congr 1
    simp

theorem joinWords_ne_nil : ∀ (w : List Char) (L : List (List Char)),
    w ≠ [] → joinWords (w :: L) ≠ [] := by
  intro w L hw
  cases L with
  | nil => exact hw
  | cons v L' =>
    show w ++ ' ' :: joinWords (v :: L') ≠ []
    simp

/-- Splitting the space-joined words recovers them, provided every word is
non-empty and whitespace-free. -/
theorem splitWs_joinWords : ∀ L : List (List Char),
    (∀ w ∈ L, w ≠ [] ∧ ∀ c ∈ w, isWs c = false) →
    splitWs (joinWords L) = L := by
  intro L
  induction L with
  | nil => intro _; rfl
  | cons w L' ih =>
    intro hL
    obtain ⟨hw, hwf⟩ := hL w (List.mem_cons_self _ _)
    cases L' with
    | nil =>
      show splitWsAux [] (joinWords [w]) = [w]
      have hjw : joinWords [w] = w ++ [] := by simp [joinWords]
      rw [hjw, splitWsAux_append_word w [] [] hwf, splitWsAux_nil]
      rw [if_neg (by simpa using hw)]
      simp
    | cons v L'' =>
      show splitWsAux [] (w ++ ' ' :: joinWords (v :: L'')) = _
      rw [splitWsAux_append_word w [] (' ' :: joinWords (v :: L'')) hwf]
      rw [splitWsAux_cons]
      rw [if_pos (by decide : isWs ' ' = true)]
      rw [if_neg (by simpa using hw)]
      rw [List.append_nil, List.reverse_reverse]
      congr 1
      exact ih (fun u hu => hL u (List.mem_cons_of_mem _ hu))

theorem mem_joinWords : ∀ (L : List (List Char)) (c : Char),
    c ∈ joinWords L → c = ' ' ∨ ∃ w ∈ L, c ∈ w := by
  intro L
  induction L with
  | nil => intro c hc; cases hc
  | cons w L' ih =>
    intro c hc
    cases L' with
    | nil =>
      exact Or.inr ⟨w, List.mem_cons_self _ _, hc⟩
    | cons v L'' =>
      have hc' : c ∈ w ++ ' ' :: joinWords (v :: L'') := hc
      rcases List.mem_append.mp hc' with hw | hrest
      · exact Or.inr ⟨w, List.mem_cons_self _ _, hw⟩
      · rcases List.mem_cons.mp hrest with rfl | hj
        · exact Or.inl rfl
        · rcases ih c hj with h | ⟨u, hu, hcu⟩
          · exact Or.inl h
          · exact Or.inr ⟨u, List.mem_cons_of_mem _ hu, hcu⟩

theorem joinWords_head? (w : List Char) (L : List (List Char)) (hw : w ≠ []) :
    (joinWords (w :: L)).head? = w.head? := by
  cases L with
  | nil => rfl
  | cons v L' =>
    show (w ++ ' ' :: joinWords (v :: L')).head? = w.head?
    rw [List.head?_append]
    cases w with
    | nil => exact absurd rfl hw
    | cons a w' => rfl

theorem joinWords_getLast? : ∀ (L : List (List Char)), L ≠ [] →
    (∀ u ∈ L, u ≠ []) → ∃ u ∈ L, (joinWords L).getLast? = u.getLast? := by
  intro L
  induction L with
  | nil => intro h _; exact absurd rfl h
  | cons w L' ih =>
    intro _ hall
    cases L' with
    | nil => exact ⟨w, List.mem_cons_self _ _, rfl⟩
    | cons v L'' =>
      obtain ⟨u, hu, hul⟩ := ih (by simp) (fun x hx => hall x (List.mem_cons_of_mem _ hx))
      refine ⟨u, List.mem_cons_of_mem _ hu, ?_⟩
      show (w ++ ' ' :: joinWords (v :: L'')).getLast? = _
      rw [List.getLast?_append]
      have hne : joinWords (v :: L'') ≠ [] :=
        joinWords_ne_nil v L'' (hall v (by simp))
      obtain ⟨x, hx⟩ := Option.isSome_iff_exists.mp (List.getLast?_isSome.mpr hne)
      rw [List.getLast?_cons, hx]
      rw [hx] at hul
      simpa using hul

/-- Python `strip()` is the identity on a join of non-empty
whitespace-free words. -/
theorem pyStrip_joinWords (L : List (List Char))
    (h : ∀ w ∈ L, w ≠ [] ∧ ∀ c ∈ w, isWs c = false) :
    pyStrip (joinWords L) = joinWords L := by
  cases L with
  | nil => rfl
  | cons w L' =>
    obtain ⟨hw, hwf⟩ := h w (List.mem_cons_self _ _)
    unfold pyStrip stripEnds
    have h1 : (joinWords (w :: L')).dropWhile isWs = joinWords (w :: L') := by
      apply dropWhile_eq_self_of_head
      intro c hc
      rw [joinWords_head? w L' hw] at hc
      apply hwf
      exact List.mem_of_mem_head? hc
    rw [h1]
    have h2 : (joinWords (w :: L')).reverse.dropWhile isWs
        = (joinWords (w :: L')).reverse := by
      apply dropWhile_eq_self_of_head
      intro c hc
      rw [List.head?_reverse] at hc
      obtain ⟨u, hu, hul⟩ := joinWords_getLast? (w :: L') (by simp)
        (fun x hx => (h x hx).1)
      rw [hul] at hc
      exact (h u hu).2 c (mem_of_getLast?_eq u c hc)
    rw [h2, List.reverse_reverse]

/-- Python `lower()` is the identity on a join of words whose characters
are already lower-case fixed points. -/
theorem pyLower_joinWords (L : List (List Char))
    (h : ∀ w ∈ L, ∀ c ∈ w, lowerChar c = c) :
    pyLower (joinWords L) = joinWords L := by
  unfold pyLower
  have hcong : List.map lowerChar (joinWords L) = List.map id (joinWords L) := by
    apply List.map_congr_left
    intro c hc
    rcases mem_joinWords L c hc with rfl | ⟨u, hu, hcu⟩
    · rfl
    · exact h u hu c hcu
  rw [hcong, List.map_id]

theorem filterWords_cons (w : List Char) (ws : List (List Char)) :
    filterWords (w :: ws) =
      if w ∈ question_words then filterWords ws
      else if w.length ≤ 2 then filterWords ws
      else if stripPunct w = [] then filterWords ws
      else stripPunct w :: filterWords ws := rfl

theorem mem_filterWords : ∀ ws : List (List Char), ∀ w' ∈ filterWords ws,
    w' ≠ [] ∧ ∃ w ∈ ws, w' = stripPunct w := by
  intro ws
  induction ws with
  | nil => intro w' hw'; cases hw'
  | cons w ws' ih =>
    intro w' hw'
    rw [filterWords_cons] at hw'
    by_cases h1 : w ∈ question_words
    · rw [if_pos h1] at hw'
      obtain ⟨hne, u, hu, he⟩ := ih w' hw'
      exact ⟨hne, u, List.mem_cons_of_mem _ hu, he⟩
    · rw [if_neg h1] at hw'
      by_cases h2 : w.length ≤ 2
      · rw [if_pos h2] at hw'
        obtain ⟨hne, u, hu, he⟩ := ih w' hw'
        exact ⟨hne, u, List.mem_cons_of_mem _ hu, he⟩
      · rw [if_neg h2] at hw'
        by_cases h3 : stripPunct w = []
        · rw [if_pos h3] at hw'
          obtain ⟨hne, u, hu, he⟩ := ih w' hw'
          exact ⟨hne, u, List.mem_cons_of_mem _ hu, he⟩
        · rw [if_neg h3] at hw'
          rcases List.mem_cons.mp hw' with rfl | hw''
          · exact ⟨h3, w, List.mem_cons_self _ _, rfl⟩
          · obtain ⟨hne, u, hu, he⟩ := ih w' hw''
            exact ⟨hne, u, List.mem_cons_of_mem _ hu, he⟩

theorem filterWords_eq_self : ∀ L : List (List Char),
    (∀ w ∈ L, w ∉ question_words ∧ 2 < w.length ∧ stripPunct w = w ∧ w ≠ []) →
    filterWords L = L := by
  intro L
  induction L with
  | nil => intro _; rfl
  | cons w L' ih =>
    intro hL
    obtain ⟨h1, h2, h3, h4⟩ := hL w (List.mem_cons_self _ _)
    rw [filterWords_cons, if_neg h1, if_neg (by omega), if_neg (by rw [h3]; exact h4), h3]
    rw [ih (fun u hu => hL u (List.mem_cons_of_mem _ hu))]

/-- Strip only trailing punctuation — the operation claim C4 describes
(`word.strip` in the source in fact strips both ends). -/
def stripTrailingPunct (w : List Char) : List Char :=
  (w.reverse.dropWhile isPunct).reverse

/-- The token filter exactly as claim C4 words it: drop stop words, then
drop tokens whose length is ≤ 2 *after* stripping trailing punctuation. -/
def filterWordsClaim : List (List Char) → List (List Char)
  | [] => []
  | w :: ws =>
    if w ∈ question_words then filterWordsClaim ws
    else
      if (stripTrailingPunct w).length ≤ 2 then filterWordsClaim ws
      else stripTrailingPunct w :: filterWordsClaim ws

/-- The query normalizer as claim C4 describes it (length test after
stripping, trailing-only stripping). -/
def preprocess_query_claim (query : List Char) : List Char :=
  let processed_query := pyStrip query
  let filtered_words := filterWordsClaim (splitWs (pyLower processed_query))
  if filtered_words.length < 2 then processed_query else joinWords filtered_words

/-- C4 counterexample: on `"hello at. world"` the source keeps the token
`at` — its length test happens *before* stripping `.` — while the claimed
algorithm (length ≤ 2 after stripping) drops it. -/
theorem C4_counterexample_short_token_survives :
    _preprocess_query "hello at. world".data = "hello at world".data
    ∧ preprocess_query_claim "hello at. world".data = "hello world".data
    ∧ _preprocess_query "hello at. world".data
        ≠ preprocess_query_claim "hello at. world".data :=
  ⟨by decide, by decide, by decide⟩

/-- The token filter of the amended claim, as a filter/map pipeline: drop
stop words; drop tokens of length ≤ 2 measured before stripping; strip
punctuation from both ends; drop tokens that became empty. -/
def filteredTokens_spec (tokens : List (List Char)) : List (List Char) :=
  (((tokens.filter (fun w => decide (w ∉ question_words))).filter
      (fun w => decide (2 < w.length))).map stripPunct).filter
    (fun w => decide (w ≠ []))

/-- The query normalizer as the amended claim describes it. -/
def preprocess_query_spec (query : List Char) : List Char :=
  let processed_query := pyStrip query
  let filtered_words := filteredTokens_spec (splitWs (pyLower processed_query))
  if filtered_words.length < 2 then processed_query else joinWords filtered_words

theorem filterWords_eq_pipeline : ∀ ws : List (List Char),
    filterWords ws = filteredTokens_spec ws := by
  intro ws
  induction ws with
  | nil => rfl
  | cons w ws' ih =>
    unfold filteredTokens_spec at *
    by_cases h1 : w ∈ question_words
    · simp [filterWords_cons, h1, List.filter_cons, ih]
    · by_cases h2 : w.length ≤ 2
      · have h2' : ¬ 2 < w.length := by omega
        simp [filterWords_cons, h1, h2, h2', List.filter_cons, ih]
      · have h2' : 2 < w.length := by omega
        by_cases h3 : stripPunct w = []
        · simp [filterWords_cons, h1, h2, h2', h3, List.filter_cons, ih]
        · simp [filterWords_cons, h1, h2, h2', h3, List.filter_cons, ih]

/-- C4 (amended): the normalizer trims, lower-cases and splits on
whitespace, drops stop-word tokens, drops tokens of length ≤ 2 *measured
before punctuation stripping*, strips `.,!?;:` from *both ends* of each
surviving token, drops tokens that became empty, and rejoins with single
spaces — returning the trimmed original query when fewer than 2 tokens
survive. -/
theorem C4_amended_normalizer_pipeline (query : List Char) :
    _preprocess_query query = preprocess_query_spec query := by
  simp only [_preprocess_query, preprocess_query_spec, filterWords_eq_pipeline]

theorem preprocess_query_eq (query : List Char) :
    _preprocess_query query =
      if (filterWords (splitWs (pyLower (pyStrip query)))).length < 2 then pyStrip query
      else joinWords (filterWords (splitWs (pyLower (pyStrip query)))) := rfl

/-- C5 counterexample: normalization is not idempotent.  On
`"can. elephants swim."` the first pass keeps `can` (stripped from
`can.`, which is not a stop word as written); the second pass then drops
it as a stop word. -/
theorem C5_counterexample_not_idempotent :
    _preprocess_query "can. elephants swim.".data = "can elephants swim".data
    ∧ _preprocess_query (_preprocess_query "can. elephants swim.".data)
        = "elephants swim".data
    ∧ _preprocess_query (_preprocess_query "can. elephants swim.".data)
        ≠ _preprocess_query "can. elephants swim.".data :=
  ⟨by decide, by decide, by decide⟩

/-- C5 (amended): normalization is idempotent on every query whose
surviving tokens are still no stop words and still longer than 2
characters after stripping — the situations the counterexample rules out. -/
theorem C5_amended_idempotent_on_stable_tokens (query : List Char)
    (hH : ∀ w ∈ filterWords (splitWs (pyLower (pyStrip query))),
      w ∉ question_words ∧ 2 < w.length) :
    _preprocess_query (_preprocess_query query) = _preprocess_query query := by
  have htt : pyStrip (pyStrip query) = pyStrip query := stripEnds_idem isWs query
  have hFmem := mem_filterWords (splitWs (pyLower (pyStrip query)))
  have hFwsfree : ∀ w ∈ filterWords (splitWs (pyLower (pyStrip query))),
      ∀ c ∈ w, isWs c = false := by
    intro w hw c hc
    obtain ⟨-, u, hu, rfl⟩ := hFmem w hw
    exact ((mem_splitWs _ u hu).2 c (mem_stripEnds isPunct u hc)).1
  have hFlower : ∀ w ∈ filterWords (splitWs (pyLower (pyStrip query))),
      ∀ c ∈ w, lowerChar c = c := by
    intro w hw c hc
    obtain ⟨-, u, hu, rfl⟩ := hFmem w hw
    have hcl : c ∈ pyLower (pyStrip query) :=
      ((mem_splitWs _ u hu).2 c (mem_stripEnds isPunct u hc)).2
    obtain ⟨c0, -, rfl⟩ := List.mem_map.mp hcl
    exact lowerChar_idem c0
  have hFstrip : ∀ w ∈ filterWords (splitWs (pyLower (pyStrip query))),
      stripPunct w = w := by
    intro w hw
    obtain ⟨-, u, hu, rfl⟩ := hFmem w hw
    exact stripEnds_idem isPunct u
  by_cases hlen : (filterWords (splitWs (pyLower (pyStrip query)))).length < 2
  · have hout : _preprocess_query query = pyStrip query := by
      rw [preprocess_query_eq, if_pos hlen]
    rw [hout, preprocess_query_eq, htt, if_pos hlen]
  · have hout : _preprocess_query query
        = joinWords (filterWords (splitWs (pyLower (pyStrip query)))) := by
      rw [preprocess_query_eq, if_neg hlen]
    have hprops : ∀ w ∈ filterWords (splitWs (pyLower (pyStrip query))),
        w ≠ [] ∧ ∀ c ∈ w, isWs c = false :=
      fun w hw => ⟨(hFmem w hw).1, hFwsfree w hw⟩
    have h1 : pyStrip (joinWords (filterWords (splitWs (pyLower (pyStrip query)))))
        = joinWords (filterWords (splitWs (pyLower (pyStrip query)))) :=
      pyStrip_joinWords _ hprops
    have h2 : pyLower (joinWords (filterWords (splitWs (pyLower (pyStrip query)))))
        = joinWords (filterWords (splitWs (pyLower (pyStrip query)))) :=
      pyLower_joinWords _ hFlower
    have h3 : splitWs (joinWords (filterWords (splitWs (pyLower (pyStrip query)))))
        = filterWords (splitWs (pyLower (pyStrip query))) :=
      splitWs_joinWords _ hprops
    have h4 : filterWords (filterWords (splitWs (pyLower (pyStrip query))))
        = filterWords (splitWs (pyLower (pyStrip query))) :=
      filterWords_eq_self _
        (fun w hw => ⟨(hH w hw).1, (hH w hw).2, hFstrip w hw, (hFmem w hw).1⟩)
    rw [hout, preprocess_query_eq, h1, h2, h3, h4, if_neg hlen]

theorem C5_witness :
    (∀ w ∈ filterWords (splitWs (pyLower (pyStrip "elephants drink water".data))),
      w ∉ question_words ∧ 2 < w.length) ∧
    _preprocess_query (_preprocess_query "elephants drink water".data)
      = _preprocess_query "elephants drink water".data :=
  ⟨by decide, C5_amended_idempotent_on_stable_tokens "elephants drink water".data (by decide)⟩
